import Mathlib

/-!
Verification of the RKCP-Score core: the fuzzy name-resolution route
(similarity scoring, Levenshtein distance, staged matching) and the
DMA trend classifier.  Strings are modelled as lists of characters and
JS numbers as rationals; absent JS values are modelled with Option.
-/

namespace RKCP

/-! ### Trend classifier (src/services/stockPriceService.js, getTrendAnalysis) -/

/-- Result object of getTrendAnalysis.  The three percentage fields are
Option valued with none meaning the key is absent from the returned object;
the three comparison fields are Option valued with none meaning the key is
present but set to null. -/
structure TrendResult where
  trend : String
  signal : String
  dma50 : Option ℚ
  dma200 : Option ℚ
  currentPrice : Option ℚ
  dma50Above200 : Option Bool
  priceAbove50 : Option Bool
  priceAbove200 : Option Bool
  dma50PercentDiff : Option ℚ
  priceVs50Percent : Option ℚ
  priceVs200Percent : Option ℚ
deriving DecidableEq, Repr

/-- Truthiness of an optional numeric value: JS treats null/undefined and 0
as falsy, every other number as truthy. -/
def truthy : Option ℚ → Bool
  | none => false
  | some x => decide (x ≠ 0)

/-- Model of parseFloat(x.toFixed(2)): rounding to two decimal places. -/
def round2 (x : ℚ) : ℚ := (round (x * 100) : ℚ) / 100

/-- Shallow embedding of getTrendAnalysis.  The guard mirrors
(!dma50 || !dma200 || !currentPrice); on the guarded path the inputs are
echoed unmodified, the three booleans are null and the percentage keys are
absent.  Otherwise the booleans and the if/else chain for trend and signal
follow the source line by line, and the echoed numbers and percentages are
rounded to two decimals. -/
def getTrendAnalysis (dma50 dma200 currentPrice : Option ℚ) : TrendResult :=
  if !truthy dma50 || !truthy dma200 || !truthy currentPrice then
    { trend := "unknown"
      signal := "insufficient_data"
      dma50 := dma50
      dma200 := dma200
      currentPrice := currentPrice
      dma50Above200 := none
      priceAbove50 := none
      priceAbove200 := none
      dma50PercentDiff := none
      priceVs50Percent := none
      priceVs200Percent := none }
  else
    let a := dma50.getD 0
    let b := dma200.getD 0
    let c := currentPrice.getD 0
    let dma50Above200 := decide (a > b)
    let priceAbove50 := decide (c > a)
    let priceAbove200 := decide (c > b)
    let ts : String × String :=
      if dma50Above200 && priceAbove50 && priceAbove200 then ("bullish", "strong_buy")
      else if dma50Above200 && priceAbove200 then ("bullish", "buy")
      else if dma50Above200 then ("bullish", "weak_buy")
      else if !dma50Above200 && !priceAbove50 && !priceAbove200 then ("bearish", "strong_sell")
      else if !dma50Above200 && !priceAbove200 then ("bearish", "sell")
      else if !dma50Above200 then ("bearish", "weak_sell")
      else ("neutral", "hold")
    { trend := ts.1
      signal := ts.2
      dma50 := some (round2 a)
      dma200 := some (round2 b)
      currentPrice := some (round2 c)
      dma50Above200 := some dma50Above200
      priceAbove50 := some priceAbove50
      priceAbove200 := some priceAbove200
      dma50PercentDiff := some (round2 ((a - b) / b * 100))
      priceVs50Percent := some (round2 ((c - a) / a * 100))
      priceVs200Percent := some (round2 ((c - b) / b * 100)) }

/-- Decision table from the specification: six rows evaluated top to bottom,
first match wins, stated over the three comparison booleans.  The final
default row is the neutral/hold fallback the table never reaches. -/
def specTrendSignal (shortAboveLong valueAboveShort valueAboveLong : Bool) : String × String :=
  if shortAboveLong && valueAboveShort && valueAboveLong then ("bullish", "strong_buy")
  else if shortAboveLong && valueAboveLong then ("bullish", "buy")
  else if shortAboveLong then ("bullish", "weak_buy")
  else if !shortAboveLong && !valueAboveShort && !valueAboveLong then ("bearish", "strong_sell")
  else if !shortAboveLong && !valueAboveLong then ("bearish", "sell")
  else if !shortAboveLong then ("bearish", "weak_sell")
  else ("neutral", "hold")

/-! ### JS string primitives used by the search route (src/unnamed/part_000) -/

/-- Bool test that the second list is a leading piece of the first. -/
def startsWith : List Char → List Char → Bool
  | _, [] => true
  | [], _ :: _ => false
  | a :: hay, b :: needle => decide (a = b) && startsWith hay needle

/-- Model of the JS String.prototype.includes: the needle occurs in the hay
as a contiguous run.  includes hay needle corresponds to hay.includes(needle). -/
def includes : List Char → List Char → Bool
  | [], needle => startsWith [] needle
  | l@(_ :: t), needle => startsWith l needle || includes t needle

/-- Scanner state based model of the JS split on the regular expression of one
or more whitespace characters: a maximal whitespace run separates fields, a
leading run yields a leading empty field and a trailing run a trailing one.
The first argument records whether the previous character belonged to a
whitespace run, the second accumulates the current field in reverse. -/
def splitWsGo : Bool → List Char → List Char → List (List Char)
  | _, acc, [] => [acc.reverse]
  | inWs, acc, c :: rest =>
    if c.isWhitespace then
      if inWs then splitWsGo true acc rest
      else acc.reverse :: splitWsGo true [] rest
    else splitWsGo false (c :: acc) rest

/-- JS str.split on one or more whitespace characters. -/
def splitWs (s : List Char) : List (List Char) := splitWsGo false [] s

/-- JS String.prototype.trim: strip leading and trailing whitespace. -/
def trim (s : List Char) : List Char :=
  ((s.dropWhile Char.isWhitespace).reverse.dropWhile Char.isWhitespace).reverse

/-- JS String.prototype.toLowerCase, character by character. -/
def toLowerStr (s : List Char) : List Char := s.map Char.toLower

/-! ### Levenshtein distance (levenshteinDistance in src/unnamed/part_000)

The source fills a matrix with boundary row matrix[0][j] = j, boundary column
matrix[i][0] = i, and the inner recurrence on matrix[i-1][j-1], matrix[i][j-1]
and matrix[i-1][j].  Row i of the matrix depends only on row i-1, so the
embedding keeps one row at a time: levRowTail computes the inner cells of the
next row left to right and levRows iterates it over str2. -/

/-- Inner cells of one matrix row.  The arguments are the remaining characters
of str1 from column j on, the previous row entries from column j on, and the
value the new row already received at column j; the head of the remaining
previous entries is the diagonal cell, its successor the cell above.  The cell
formula mirrors the source: on equal characters copy the diagonal, otherwise
one plus the minimum of diagonal, left and upper cells in that order. -/
def levRowTail (c2 : Char) : List Char → List Nat → Nat → List Nat
  | [], _, _ => []
  | _ :: _, [], _ => []
  | c1 :: s1rest, p0 :: prest, left =>
    let entry := if c2 = c1 then p0 else min (p0 + 1) (min (left + 1) (prest.headD 0 + 1))
    entry :: levRowTail c2 s1rest prest entry

/-- Fold of levRowTail over str2: the counter i is the number of characters of
str2 already consumed, so the row built for the next character starts with the
boundary value i + 1. -/
def levRows (s1 : List Char) : List Char → Nat → List Nat → List Nat
  | [], _, row => row
  | c2 :: s2rest, i, row => levRows s1 s2rest (i + 1) ((i + 1) :: levRowTail c2 s1 row (i + 1))

/-- Shallow embedding of levenshteinDistance: start from the boundary row
0, 1, ..., str1.length, fold over str2, and read the cell at position
str1.length of the final row, matching matrix[str2.length][str1.length]. -/
def levenshteinDistance (str1 str2 : List Char) : Nat :=
  (levRows str1 str2 0 (List.range (str1.length + 1))).getD str1.length 0

/-- Shallow embedding of calculateSimilarity.  The word match counter models
the forEach loop over the words of str1. -/
def calculateSimilarity (str1 str2 : List Char) : ℚ :=
  if str1 = str2 then 1
  else if str1.length = 0 ∨ str2.length = 0 then 0
  else if includes str1 str2 || includes str2 str1 then 8 / 10
  else
    let maxLen : ℚ := (max str1.length str2.length : ℕ)
    let distance : ℚ := levenshteinDistance str1 str2
    let similarity : ℚ := 1 - distance / maxLen
    let words1 := splitWs str1
    let words2 := splitWs str2
    let wordMatches := words1.countP (fun word => words2.any fun w => includes w word || includes word w)
    let wordMatchBonus : ℚ := (wordMatches : ℚ) / (max words1.length words2.length : ℕ) * (3 / 10)
    min 1 (similarity + wordMatchBonus)

/-- Similarity scoring exactly as the specification words it: 1 on equality,
0 when either string is empty, the fixed containment bonus 8/10 when one
string contains the other, and otherwise the minimum of 1 and the normalized
edit similarity plus the word overlap bonus, where a word of a is matched when
it contains or is contained by some whitespace split word of b. -/
def similaritySpec (a b : List Char) : ℚ :=
  if a = b then 1
  else if a.length = 0 ∨ b.length = 0 then 0
  else if includes a b || includes b a then 8 / 10
  else
    let editSim : ℚ := 1 - (levenshteinDistance a b : ℚ) / (max a.length b.length : ℕ)
    let matched := (splitWs a).countP (fun word => (splitWs b).any fun w => includes word w || includes w word)
    let bonus : ℚ := (matched : ℚ) / (max (splitWs a).length (splitWs b).length : ℕ) * (3 / 10)
    min 1 (editSim + bonus)

/-! ### Search route (router.get search in src/unnamed/part_000)

A corpus row carries a Name and, standing for all further spreadsheet
columns, an opaque payload.  The route outcome is a bad request for a blank
query, a found row, or the not found response. -/

structure StockRow where
  Name : List Char
  payload : Nat
deriving DecidableEq, Repr

inductive SearchOutcome where
  | badRequest
  | notFound
  | found (r : StockRow)
deriving DecidableEq, Repr

/-- Stage one test: the anchored case insensitive regular expression built
from the escaped query, which matches exactly the rows whose full name equals
the query ignoring case. -/
def exactMatchPred (searchName : List Char) (r : StockRow) : Bool :=
  decide (toLowerStr r.Name = toLowerStr searchName)

/-- Stage two test: the unanchored case insensitive regular expression, which
matches exactly the rows whose name contains the query ignoring case. -/
def substrMatchPred (searchName : List Char) (r : StockRow) : Bool :=
  includes (toLowerStr r.Name) (toLowerStr searchName)

/-- Stage three score of a row: calculateSimilarity on the lower cased query
and the lower cased row name. -/
def scoreOf (searchName : List Char) (r : StockRow) : ℚ :=
  calculateSimilarity (toLowerStr searchName) (toLowerStr r.Name)

/-- Comparator passed to the stage three sort: the JS comparator returns
b.similarity - a.similarity, which orders pairs by descending score.  The JS
Array.prototype.sort is stable, so it is modelled by mergeSort. -/
def simLE {α : Type} (x y : α × ℚ) : Bool := decide (y.2 ≤ x.2)

/-- Shallow embedding of the search route handler: reject a blank query, try
the exact stage, then the substring stage, then score every row, sort by
descending score with the stable sort, take the first element, and accept it
only above the 3/10 threshold. -/
def search (name : List Char) (corpus : List StockRow) : SearchOutcome :=
  if trim name = [] then .badRequest
  else
    match corpus.find? (exactMatchPred (trim name)) with
    | some stock => .found stock
    | none =>
      match corpus.find? (substrMatchPred (trim name)) with
      | some stock => .found stock
      | none =>
        match ((corpus.map fun r => (r, scoreOf (trim name) r)).mergeSort simLE).head? with
        | some bestMatch => if bestMatch.2 > 3 / 10 then .found bestMatch.1 else .notFound
        | none => .notFound

/-- First element of a list of scored pairs attaining the maximal score,
scanning from the left: a later element replaces the current best only when
its score is strictly larger. -/
def firstMax {α : Type} : List (α × ℚ) → Option (α × ℚ)
  | [] => none
  | x :: xs =>
    match firstMax xs with
    | none => some x
    | some m => if m.2 > x.2 then some m else some x

/-- Predicate from the specification data model: the result carries all
eleven TrendResult fields.  Eight fields are present by construction of the
embedding; the three percentage keys are the ones the source may omit, so
presence of all eleven reduces to presence of those three. -/
def hasAllElevenFields (r : TrendResult) : Prop :=
  r.dma50PercentDiff.isSome = true ∧ r.priceVs50Percent.isSome = true ∧
    r.priceVs200Percent.isSome = true

/-! ### Reference recursion and edit scripts for the Levenshtein proof

levRec is the classic textbook recursion on the heads of both strings, with
the three way minimum ordered as in the source recurrence.  Aligns s t n
holds when an edit script of n single character operations, substitutions,
insertions and deletions, read left to right along an alignment of the two
strings, transforms s into t. -/

def levRec : List Char → List Char → Nat
  | [], t => t.length
  | s@(_ :: _), [] => s.length
  | a :: s, b :: t =>
    if b = a then levRec s t
    else min (levRec s t + 1) (min (levRec s (b :: t) + 1) (levRec (a :: s) t + 1))
termination_by s t => s.length + t.length

/-- Edit scripts along an alignment: copy costs nothing, substitution of
distinct characters, insertion and deletion cost one each. -/
inductive Aligns : List Char → List Char → Nat → Prop
  | nil : Aligns [] [] 0
  | copy (a : Char) {s t : List Char} {n : Nat} :
      Aligns s t n → Aligns (a :: s) (a :: t) n
  | sub {a b : Char} {s t : List Char} {n : Nat} (h : a ≠ b) :
      Aligns s t n → Aligns (a :: s) (b :: t) (n + 1)
  | ins (b : Char) {s t : List Char} {n : Nat} :
      Aligns s t n → Aligns s (b :: t) (n + 1)
  | del (a : Char) {s t : List Char} {n : Nat} :
      Aligns s t n → Aligns (a :: s) t (n + 1)

/-- Column of prefixes of u ++ v that extend u, shortest first. -/
def prefCol (u : List Char) : List Char → List (List Char)
  | [] => [u]
  | c :: v => u :: prefCol (u ++ [c]) v


/-! ### Theorems -/

theorem getTrendAnalysis_some (a b c : ℚ) (ha : a ≠ 0) (hb : b ≠ 0) (hc : c ≠ 0) :
    getTrendAnalysis (some a) (some b) (some c) =
      { trend := (specTrendSignal (decide (a > b)) (decide (c > a)) (decide (c > b))).1
        signal := (specTrendSignal (decide (a > b)) (decide (c > a)) (decide (c > b))).2
        dma50 := some (round2 a)
        dma200 := some (round2 b)
        currentPrice := some (round2 c)
        dma50Above200 := some (decide (a > b))
        priceAbove50 := some (decide (c > a))
        priceAbove200 := some (decide (c > b))
        dma50PercentDiff := some (round2 ((a - b) / b * 100))
        priceVs50Percent := some (round2 ((c - a) / a * 100))
        priceVs200Percent := some (round2 ((c - b) / b * 100)) } := by
  have ha' : decide (a ≠ 0) = true := by simpa using ha
  have hb' : decide (b ≠ 0) = true := by simpa using hb
  have hc' : decide (c ≠ 0) = true := by simpa using hc
  simp only [getTrendAnalysis, truthy, specTrendSignal, ha', hb', hc',
    Bool.not_true, Bool.false_or, Bool.or_self]
  rfl

theorem startsWith_iff (needle hay : List Char) :
    startsWith hay needle = true ↔ ∃ q, hay = needle ++ q := by
  induction needle generalizing hay with
  | nil =>
    cases hay <;> simp [startsWith]
  | cons b nd ih =>
    cases hay with
    | nil => simp [startsWith]
    | cons a t =>
      simp only [startsWith, Bool.and_eq_true, decide_eq_true_eq, ih, List.cons_append,
        List.cons.injEq]
      constructor
      · rintro ⟨rfl, q, rfl⟩
        exact ⟨q, rfl, rfl⟩
      · rintro ⟨q, rfl, rfl⟩
        exact ⟨rfl, q, rfl⟩

theorem includes_iff (hay needle : List Char) :
    includes hay needle = true ↔ ∃ p q, hay = p ++ needle ++ q := by
  induction hay with
  | nil =>
    simp only [includes, startsWith_iff]
    constructor
    · rintro ⟨q, h⟩
      exact ⟨[], q, h⟩
    · rintro ⟨p, q, h⟩
      cases p with
      | nil => exact ⟨q, h⟩
      | cons x xs => simp at h
  | cons a t ih =>
    simp only [includes, Bool.or_eq_true, startsWith_iff, ih]
    constructor
    · rintro (⟨q, h⟩ | ⟨p, q, h⟩)
      · exact ⟨[], q, by simpa using h⟩
      · exact ⟨a :: p, q, by simp [h]⟩
    · rintro ⟨p, q, h⟩
      cases p with
      | nil => exact Or.inl ⟨q, by simpa using h⟩
      | cons x xs =>
        simp only [List.cons_append, List.cons.injEq] at h
        exact Or.inr ⟨xs, q, h.2⟩

/-- C1: the similarity function computes exactly the formula the
specification states. -/
theorem calculateSimilarity_eq_spec (a b : List Char) :
    calculateSimilarity a b = similaritySpec a b := by
  unfold calculateSimilarity similaritySpec
  have hcount : ((splitWs a).countP fun word => (splitWs b).any fun w => includes w word || includes word w) =
      ((splitWs a).countP fun word => (splitWs b).any fun w => includes word w || includes w word) := by
    apply List.countP_congr
    intro word _
    simp only [List.any_eq_true, Bool.or_eq_true]
    constructor <;> · rintro ⟨w, hw, h | h⟩ <;> exact ⟨w, hw, by simp [h]⟩
  simp only [hcount]

theorem simLE_trans {α : Type} (a b c : α × ℚ) (h1 : simLE a b) (h2 : simLE b c) :
    simLE a c = true := by
  simp only [simLE, decide_eq_true_eq] at *
  exact h2.trans h1

theorem simLE_total {α : Type} (a b : α × ℚ) : simLE a b || simLE b a := by
  simp only [simLE, Bool.or_eq_true, decide_eq_true_eq]
  exact le_total b.2 a.2

theorem firstMax_eq_none {α : Type} (l : List (α × ℚ)) : firstMax l = none ↔ l = [] := by
  cases l with
  | nil => simp [firstMax]
  | cons x xs =>
    simp only [firstMax]
    cases firstMax xs with
    | none => simp
    | some m =>
      constructor
      · intro h
        by_cases hc : m.2 > x.2 <;> simp [hc] at h
      · intro h
        simp at h

theorem firstMax_mem {α : Type} (l : List (α × ℚ)) (m : α × ℚ) (h : firstMax l = some m) :
    m ∈ l := by
  induction l with
  | nil => simp [firstMax] at h
  | cons x xs ih =>
    cases hM : firstMax xs with
    | none =>
      simp only [firstMax, hM] at h
      simp at h
      simp [h]
    | some m' =>
      simp only [firstMax, hM] at h
      by_cases hc : m'.2 > x.2
      · rw [if_pos hc] at h
        injection h with h
        subst h
        exact List.mem_cons_of_mem x (ih hM)
      · rw [if_neg hc] at h
        injection h with h
        subst h
        exact List.mem_cons_self x xs

theorem firstMax_isMax {α : Type} (l : List (α × ℚ)) (m : α × ℚ) (h : firstMax l = some m) :
    ∀ b ∈ l, b.2 ≤ m.2 := by
  induction l generalizing m with
  | nil => simp [firstMax] at h
  | cons x xs ih =>
    cases hM : firstMax xs with
    | none =>
      simp only [firstMax, hM] at h
      simp only [Option.some.injEq] at h
      subst h
      have hxs : xs = [] := (firstMax_eq_none xs).mp hM
      subst hxs
      simp
    | some m' =>
      simp only [firstMax, hM] at h
      by_cases hc : m'.2 > x.2
      · rw [if_pos hc] at h
        injection h with h
        subst h
        intro b hb
        rcases List.mem_cons.mp hb with rfl | hb
        · exact le_of_lt hc
        · exact ih m' hM b hb
      · rw [if_neg hc] at h
        injection h with h
        subst h
        intro b hb
        rcases List.mem_cons.mp hb with rfl | hb
        · exact le_refl _
        · exact (ih m' hM b hb).trans (not_lt.mp hc)

/-- Head of the stable descending sort: the first element of the input
attaining the maximal score.  This is the stability content of the stage
three selection. -/
theorem head_mergeSort_eq_firstMax {α : Type} (l : List (α × ℚ)) :
    (l.mergeSort simLE).head? = firstMax l := by
  induction l with
  | nil => simp [List.mergeSort_nil, firstMax]
  | cons a l ih =>
    obtain ⟨l₁, l₂, h₁, h₂, h₃⟩ := List.mergeSort_cons simLE_trans simLE_total a l
    cases hM : firstMax l with
    | none =>
      have hl : l = [] := (firstMax_eq_none l).mp hM
      subst hl
      simp [List.mergeSort_singleton, firstMax]
    | some m =>
      rw [hM] at ih
      obtain ⟨rest, hrest⟩ : ∃ rest, l.mergeSort simLE = m :: rest := by
        cases h : l.mergeSort simLE with
        | nil => rw [h] at ih; simp at ih
        | cons x r =>
          rw [h] at ih
          simp only [List.head?_cons, Option.some.injEq] at ih
          exact ⟨r, by rw [ih]⟩
      simp only [firstMax, hM]
      by_cases hc : m.2 > a.2
      · rw [if_pos hc]
        cases l₁ with
        | nil =>
          exfalso
          have hs := List.sorted_mergeSort simLE_trans simLE_total (a :: l)
          rw [h₁] at hs
          have hl₂ : l₂ = m :: rest := by
            rw [hrest] at h₂
            simpa using h₂.symm
          subst hl₂
          simp only [List.nil_append, List.pairwise_cons] at hs
          have := hs.1 m (List.mem_cons_self m rest)
          simp only [simLE, decide_eq_true_eq] at this
          exact absurd this (not_le.mpr hc)
        | cons x l₁' =>
          have hx : x = m := by
            rw [hrest] at h₂
            have h₂' := h₂.symm
            simp only [List.cons_append, List.cons.injEq] at h₂'
            exact h₂'.1
          rw [h₁, hx]
          simp
      · rw [if_neg hc]
        have hl₁ : l₁ = [] := by
          cases l₁ with
          | nil => rfl
          | cons x l₁' =>
            exfalso
            have hx := h₃ x (List.mem_cons_self x l₁')
            simp only [simLE, Bool.not_eq_true', decide_eq_false_iff_not, not_le] at hx
            have hxl : x ∈ l := by
              have : x ∈ l.mergeSort simLE := by
                rw [h₂]
                exact List.mem_append_left _ (List.mem_cons_self x l₁')
              exact List.mem_mergeSort.mp this
            have h1 := firstMax_isMax l m hM x hxl
            have h2 := not_lt.mp hc
            exact absurd (h1.trans h2) (not_le.mpr hx)
        subst hl₁
        rw [h₁]
        simp

/-- First index attaining the maximum: when position i holds a maximal score
and every earlier position scores strictly less, the left to right scan stops
at position i. -/
theorem firstMax_first_attains {α : Type} (l : List (α × ℚ)) (i : Nat) (hi : i < l.length)
    (hmax : ∀ j, (hj : j < l.length) → l[j].2 ≤ l[i].2)
    (hfirst : ∀ j, (hj : j < l.length) → j < i → l[j].2 < l[i].2) :
    firstMax l = some l[i] := by
  induction l generalizing i with
  | nil => exact absurd hi (Nat.not_lt_zero i)
  | cons x xs ih =>
    cases i with
    | zero =>
      simp only [List.getElem_cons_zero]
      cases hM : firstMax xs with
      | none => simp [firstMax, hM]
      | some m =>
        have hm : m ∈ xs := firstMax_mem xs m hM
        obtain ⟨j, hj, hget⟩ := List.mem_iff_getElem.mp hm
        have hle := hmax (j + 1) (by simpa using Nat.succ_lt_succ hj)
        simp only [List.getElem_cons_succ, List.getElem_cons_zero, hget] at hle
        simp [firstMax, hM, not_lt.mpr hle]
    | succ k =>
      have hk : k < xs.length := by simpa using hi
      have ihres : firstMax xs = some xs[k] := by
        apply ih k hk
        · intro j hj
          have := hmax (j + 1) (by simpa using Nat.succ_lt_succ hj)
          simpa using this
        · intro j hj hji
          have := hfirst (j + 1) (by simpa using Nat.succ_lt_succ hj) (Nat.succ_lt_succ hji)
          simpa using this
      have hx : x.2 < xs[k].2 := by
        have := hfirst 0 (Nat.succ_pos _) (Nat.succ_pos k)
        simpa using this
      simp [firstMax, ihres, hx]

/-- C3: matching proceeds in strict priority order.  The first conjunct: an
exact case insensitive full name match, found as the first such row of the
corpus, wins immediately, regardless of every other candidate.  The second
conjunct: only when the exact stage is empty does the substring stage decide,
and the later similarity stage is never consulted when either stage yields a
row. -/
theorem search_priority (name : List Char) (corpus : List StockRow) (h1 : trim name ≠ []) :
    (∀ r, corpus.find? (exactMatchPred (trim name)) = some r →
      search name corpus = .found r) ∧
    (∀ r, corpus.find? (exactMatchPred (trim name)) = none →
      corpus.find? (substrMatchPred (trim name)) = some r →
      search name corpus = .found r) := by
  constructor
  · intro r h2
    unfold search
    rw [if_neg h1]
    simp [h2]
  · intro r h2 h3
    unfold search
    rw [if_neg h1]
    simp [h2, h3]

/-- Witness for C3: a query that equals the second row name up to case
resolves at the exact stage. -/
theorem search_priority_witness :
    search ['i', 'N', 'F', 'Y'] [⟨['A', 'b', 'c'], 0⟩, ⟨['I', 'n', 'f', 'y'], 1⟩] =
      .found ⟨['I', 'n', 'f', 'y'], 1⟩ :=
  (search_priority ['i', 'N', 'F', 'Y'] [⟨['A', 'b', 'c'], 0⟩, ⟨['I', 'n', 'f', 'y'], 1⟩]
    (by decide)).1 ⟨['I', 'n', 'f', 'y'], 1⟩ (by decide)

/-- C4: for a non blank query, the route answers not found exactly when the
exact and substring stages are both empty and either the corpus is empty or
every similarity score is at most 3/10; the threshold is strict, so a maximal
score of exactly 3/10 still answers not found, and neither the empty corpus
nor a below threshold maximum is an error. -/
theorem search_no_match_iff (name : List Char) (corpus : List StockRow)
    (h1 : trim name ≠ []) :
    search name corpus = .notFound ↔
      (corpus.find? (exactMatchPred (trim name)) = none ∧
        corpus.find? (substrMatchPred (trim name)) = none ∧
        (corpus = [] ∨ ∀ r ∈ corpus, scoreOf (trim name) r ≤ 3 / 10)) := by
  unfold search
  rw [if_neg h1]
  cases h2 : corpus.find? (exactMatchPred (trim name)) with
  | some s => simp
  | none =>
    cases h3 : corpus.find? (substrMatchPred (trim name)) with
    | some s => simp
    | none =>
      simp only [head_mergeSort_eq_firstMax, true_and]
      cases hF : firstMax (corpus.map fun r => (r, scoreOf (trim name) r)) with
      | none =>
        have hnil : corpus = [] := by
          have := (firstMax_eq_none _).mp hF
          simpa using this
        subst hnil
        simp
      | some best =>
        dsimp only
        have hmem := firstMax_mem _ _ hF
        obtain ⟨r0, hr0, hbest⟩ := List.mem_map.mp hmem
        have hne : corpus ≠ [] := by
          intro h
          subst h
          simp at hr0
        constructor
        · intro h
          by_cases hgt : best.2 > 3 / 10
          · rw [if_pos hgt] at h
            simp at h
          · refine Or.inr fun r hr => ?_
            have hsc := firstMax_isMax _ _ hF (r, scoreOf (trim name) r)
              (List.mem_map.mpr ⟨r, hr, rfl⟩)
            exact le_trans hsc (not_lt.mp hgt)
        · intro h
          rcases h with h | h
          · exact absurd h hne
          · have hle : best.2 ≤ 3 / 10 := by
              rw [← hbest]
              exact h r0 hr0
            rw [if_neg (not_lt.mpr hle)]

/-- Witness for C4: the empty corpus resolves to not found, not to an error. -/
theorem search_no_match_iff_witness :
    search ['z', 'z'] [] = SearchOutcome.notFound :=
  (search_no_match_iff ['z', 'z'] [] (by decide)).mpr ⟨rfl, rfl, Or.inl rfl⟩

/-- C5: at the similarity stage the returned row is the one at the smallest
corpus index attaining the maximal score, so identical maximal scores are
broken toward the earlier index; search is a pure function of its arguments,
so the choice is the same on every repeated call. -/
theorem search_tie_break (name : List Char) (corpus : List StockRow) (i : Nat)
    (h1 : trim name ≠ [])
    (h2 : corpus.find? (exactMatchPred (trim name)) = none)
    (h3 : corpus.find? (substrMatchPred (trim name)) = none)
    (hi : i < corpus.length)
    (hmax : ∀ j, (hj : j < corpus.length) →
      scoreOf (trim name) corpus[j] ≤ scoreOf (trim name) corpus[i])
    (hfirst : ∀ j, (hj : j < corpus.length) → j < i →
      scoreOf (trim name) corpus[j] < scoreOf (trim name) corpus[i])
    (hthr : scoreOf (trim name) corpus[i] > 3 / 10) :
    search name corpus = .found corpus[i] := by
  have hlen : (corpus.map fun r => (r, scoreOf (trim name) r)).length = corpus.length := by
    simp
  have hi' : i < (corpus.map fun r => (r, scoreOf (trim name) r)).length := by rwa [hlen]
  have hF : firstMax (corpus.map fun r => (r, scoreOf (trim name) r)) =
      some ((corpus.map fun r => (r, scoreOf (trim name) r))[i]) := by
    apply firstMax_first_attains _ i hi'
    · intro j hj
      have hj' : j < corpus.length := by rwa [hlen] at hj
      simpa using hmax j hj'
    · intro j hj hji
      have hj' : j < corpus.length := by rwa [hlen] at hj
      simpa using hfirst j hj' hji
  unfold search
  rw [if_neg h1]
  simp only [h2, h3, head_mergeSort_eq_firstMax, hF, List.getElem_map]
  rw [if_pos hthr]

/-- Witness for C5: the second and third rows tie at score 2/3 above the
threshold, the first row scores 0, and the earlier of the tied rows is
returned. -/
theorem search_tie_break_witness :
    search ['a', 'b', 'c']
        [⟨['z', 'z', 'z'], 0⟩, ⟨['a', 'b', 'd'], 1⟩, ⟨['a', 'b', 'e'], 2⟩] =
      .found ⟨['a', 'b', 'd'], 1⟩ := by
  have sz : scoreOf ['a', 'b', 'c'] ⟨['z', 'z', 'z'], 0⟩ = 0 := by
    unfold scoreOf
    rw [show toLowerStr ['a', 'b', 'c'] = ['a', 'b', 'c'] from by decide,
        show toLowerStr ['z', 'z', 'z'] = ['z', 'z', 'z'] from by decide]
    unfold calculateSimilarity
    rw [if_neg (by decide), if_neg (by decide), if_neg (by decide)]
    rw [show levenshteinDistance ['a', 'b', 'c'] ['z', 'z', 'z'] = 3 from by decide]
    rw [show splitWs ['a', 'b', 'c'] = [['a', 'b', 'c']] from by decide,
        show splitWs ['z', 'z', 'z'] = [['z', 'z', 'z']] from by decide]
    norm_num +decide [List.countP, List.countP.go, includes, startsWith]
  have sd : scoreOf ['a', 'b', 'c'] ⟨['a', 'b', 'd'], 1⟩ = 2 / 3 := by
    unfold scoreOf
    rw [show toLowerStr ['a', 'b', 'c'] = ['a', 'b', 'c'] from by decide,
        show toLowerStr ['a', 'b', 'd'] = ['a', 'b', 'd'] from by decide]
    unfold calculateSimilarity
    rw [if_neg (by decide), if_neg (by decide), if_neg (by decide)]
    rw [show levenshteinDistance ['a', 'b', 'c'] ['a', 'b', 'd'] = 1 from by decide]
    rw [show splitWs ['a', 'b', 'c'] = [['a', 'b', 'c']] from by decide,
        show splitWs ['a', 'b', 'd'] = [['a', 'b', 'd']] from by decide]
    norm_num +decide [List.countP, List.countP.go, includes, startsWith]
  have se : scoreOf ['a', 'b', 'c'] ⟨['a', 'b', 'e'], 2⟩ = 2 / 3 := by
    unfold scoreOf
    rw [show toLowerStr ['a', 'b', 'c'] = ['a', 'b', 'c'] from by decide,
        show toLowerStr ['a', 'b', 'e'] = ['a', 'b', 'e'] from by decide]
    unfold calculateSimilarity
    rw [if_neg (by decide), if_neg (by decide), if_neg (by decide)]
    rw [show levenshteinDistance ['a', 'b', 'c'] ['a', 'b', 'e'] = 1 from by decide]
    rw [show splitWs ['a', 'b', 'c'] = [['a', 'b', 'c']] from by decide,
        show splitWs ['a', 'b', 'e'] = [['a', 'b', 'e']] from by decide]
    norm_num +decide [List.countP, List.countP.go, includes, startsWith]
  have happ := search_tie_break ['a', 'b', 'c']
    [⟨['z', 'z', 'z'], 0⟩, ⟨['a', 'b', 'd'], 1⟩, ⟨['a', 'b', 'e'], 2⟩] 1
    (by decide) (by decide) (by decide) (by decide)
    (by
      intro j hj
      have hj3 : j < 3 := by simpa using hj
      interval_cases j
      · show scoreOf ['a', 'b', 'c'] ⟨['z', 'z', 'z'], 0⟩ ≤
          scoreOf ['a', 'b', 'c'] ⟨['a', 'b', 'd'], 1⟩
        rw [sz, sd]; norm_num
      · exact le_refl _
      · show scoreOf ['a', 'b', 'c'] ⟨['a', 'b', 'e'], 2⟩ ≤
          scoreOf ['a', 'b', 'c'] ⟨['a', 'b', 'd'], 1⟩
        rw [se, sd])
    (by
      intro j hj hji
      interval_cases j
      show scoreOf ['a', 'b', 'c'] ⟨['z', 'z', 'z'], 0⟩ <
        scoreOf ['a', 'b', 'c'] ⟨['a', 'b', 'd'], 1⟩
      rw [sz, sd]; norm_num)
    (by
      show scoreOf ['a', 'b', 'c'] ⟨['a', 'b', 'd'], 1⟩ > 3 / 10
      rw [sd]; norm_num)
  exact happ

/-- C6: with all three inputs present and truthy, the classifier computes the
three comparison booleans from the inputs and derives trend and signal by the
six row decision table evaluated top to bottom with first match winning. -/
theorem trend_decision_table (a b c : ℚ) (ha : a ≠ 0) (hb : b ≠ 0) (hc : c ≠ 0) :
    ((getTrendAnalysis (some a) (some b) (some c)).trend,
        (getTrendAnalysis (some a) (some b) (some c)).signal) =
      specTrendSignal (decide (a > b)) (decide (c > a)) (decide (c > b)) ∧
    (getTrendAnalysis (some a) (some b) (some c)).dma50Above200 = some (decide (a > b)) ∧
    (getTrendAnalysis (some a) (some b) (some c)).priceAbove50 = some (decide (c > a)) ∧
    (getTrendAnalysis (some a) (some b) (some c)).priceAbove200 = some (decide (c > b)) := by
  rw [getTrendAnalysis_some a b c ha hb hc]
  exact ⟨rfl, rfl, rfl, rfl⟩

/-- Witness for C6 at the specification example classify(2000, 2300, 1900). -/
theorem trend_decision_table_witness :
    ((getTrendAnalysis (some 2000) (some 2300) (some 1900)).trend,
        (getTrendAnalysis (some 2000) (some 2300) (some 1900)).signal) =
      specTrendSignal (decide ((2000 : ℚ) > 2300)) (decide ((1900 : ℚ) > 2000))
        (decide ((1900 : ℚ) > 2300)) ∧
    (getTrendAnalysis (some 2000) (some 2300) (some 1900)).dma50Above200 =
      some (decide ((2000 : ℚ) > 2300)) ∧
    (getTrendAnalysis (some 2000) (some 2300) (some 1900)).priceAbove50 =
      some (decide ((1900 : ℚ) > 2000)) ∧
    (getTrendAnalysis (some 2000) (some 2300) (some 1900)).priceAbove200 =
      some (decide ((1900 : ℚ) > 2300)) :=
  trend_decision_table 2000 2300 1900 (by norm_num) (by norm_num) (by norm_num)

/-- C7: with any input absent, zero or otherwise falsy, the classifier returns
the insufficient data result at once: trend unknown, signal insufficient_data,
inputs echoed unmodified, the three booleans null, and no percentage fields. -/
theorem trend_insufficient (d50 d200 cp : Option ℚ)
    (h : truthy d50 = false ∨ truthy d200 = false ∨ truthy cp = false) :
    getTrendAnalysis d50 d200 cp =
      { trend := "unknown"
        signal := "insufficient_data"
        dma50 := d50
        dma200 := d200
        currentPrice := cp
        dma50Above200 := none
        priceAbove50 := none
        priceAbove200 := none
        dma50PercentDiff := none
        priceVs50Percent := none
        priceVs200Percent := none } := by
  unfold getTrendAnalysis
  rcases h with h | h | h <;> simp [h]

/-- Witness for C7 at the specification example classify(null, 2300, 2500). -/
theorem trend_insufficient_witness :
    getTrendAnalysis none (some 2300) (some 2500) =
      { trend := "unknown"
        signal := "insufficient_data"
        dma50 := none
        dma200 := some 2300
        currentPrice := some 2500
        dma50Above200 := none
        priceAbove50 := none
        priceAbove200 := none
        dma50PercentDiff := none
        priceVs50Percent := none
        priceVs200Percent := none } :=
  trend_insufficient none (some 2300) (some 2500) (Or.inl rfl)

/-- C8: once all three inputs are truthy the neutral/hold default branch is
unreachable: the trend is always bullish or bearish and the signal one of the
six buy or sell signals. -/
theorem trend_no_neutral (a b c : ℚ) (ha : a ≠ 0) (hb : b ≠ 0) (hc : c ≠ 0) :
    ((getTrendAnalysis (some a) (some b) (some c)).trend = "bullish" ∨
      (getTrendAnalysis (some a) (some b) (some c)).trend = "bearish") ∧
    ((getTrendAnalysis (some a) (some b) (some c)).signal = "strong_buy" ∨
      (getTrendAnalysis (some a) (some b) (some c)).signal = "buy" ∨
      (getTrendAnalysis (some a) (some b) (some c)).signal = "weak_buy" ∨
      (getTrendAnalysis (some a) (some b) (some c)).signal = "strong_sell" ∨
      (getTrendAnalysis (some a) (some b) (some c)).signal = "sell" ∨
      (getTrendAnalysis (some a) (some b) (some c)).signal = "weak_sell") := by
  rw [getTrendAnalysis_some a b c ha hb hc]
  generalize decide (a > b) = s
  generalize decide (c > a) = vs
  generalize decide (c > b) = vl
  cases s <;> cases vs <;> cases vl <;> simp [specTrendSignal]

/-- Witness for C8 at the specification example classify(2450.50, 2300.25, 2500.00). -/
theorem trend_no_neutral_witness :
    ((getTrendAnalysis (some (4901 / 2)) (some (9201 / 4)) (some 2500)).trend = "bullish" ∨
      (getTrendAnalysis (some (4901 / 2)) (some (9201 / 4)) (some 2500)).trend = "bearish") ∧
    ((getTrendAnalysis (some (4901 / 2)) (some (9201 / 4)) (some 2500)).signal = "strong_buy" ∨
      (getTrendAnalysis (some (4901 / 2)) (some (9201 / 4)) (some 2500)).signal = "buy" ∨
      (getTrendAnalysis (some (4901 / 2)) (some (9201 / 4)) (some 2500)).signal = "weak_buy" ∨
      (getTrendAnalysis (some (4901 / 2)) (some (9201 / 4)) (some 2500)).signal = "strong_sell" ∨
      (getTrendAnalysis (some (4901 / 2)) (some (9201 / 4)) (some 2500)).signal = "sell" ∨
      (getTrendAnalysis (some (4901 / 2)) (some (9201 / 4)) (some 2500)).signal = "weak_sell") :=
  trend_no_neutral (4901 / 2) (9201 / 4) 2500 (by norm_num) (by norm_num) (by norm_num)

/-- C9 counterexample: on the insufficient data path the returned object omits
the three percentage fields, so it does not carry all eleven fields. -/
theorem trend_eleven_fields_cex :
    ¬ hasAllElevenFields (getTrendAnalysis none (some 2300) (some 2500)) := by
  unfold hasAllElevenFields getTrendAnalysis truthy
  simp

/-- C9 amended: the result always carries the eight base fields (built into
the shape of TrendResult), and it carries the three percentage fields, hence
all eleven, exactly when all three inputs are truthy. -/
theorem trend_eleven_fields_amended (d50 d200 cp : Option ℚ) :
    hasAllElevenFields (getTrendAnalysis d50 d200 cp) ↔
      (truthy d50 = true ∧ truthy d200 = true ∧ truthy cp = true) := by
  unfold getTrendAnalysis hasAllElevenFields
  cases h1 : truthy d50 <;> cases h2 : truthy d200 <;> cases h3 : truthy cp <;> simp

/-- C10: with all inputs truthy the classifier echoes the three inputs rounded
to two decimal places, not verbatim; on the insufficient data path the
possibly null inputs are echoed back unmodified. -/
theorem trend_echo_rounding (d50 d200 cp : Option ℚ) :
    ((truthy d50 && truthy d200 && truthy cp) = true →
      (getTrendAnalysis d50 d200 cp).dma50 = some (round2 (d50.getD 0)) ∧
      (getTrendAnalysis d50 d200 cp).dma200 = some (round2 (d200.getD 0)) ∧
      (getTrendAnalysis d50 d200 cp).currentPrice = some (round2 (cp.getD 0))) ∧
    ((truthy d50 && truthy d200 && truthy cp) = false →
      (getTrendAnalysis d50 d200 cp).dma50 = d50 ∧
      (getTrendAnalysis d50 d200 cp).dma200 = d200 ∧
      (getTrendAnalysis d50 d200 cp).currentPrice = cp) := by
  unfold getTrendAnalysis
  cases h1 : truthy d50 <;> cases h2 : truthy d200 <;> cases h3 : truthy cp <;> simp

/-- Witness for C10: 2.456 is echoed as round2 2.456, which differs from the
verbatim input, and a null input is echoed unchanged. -/
theorem trend_echo_rounding_witness :
    (getTrendAnalysis (some (307 / 125)) (some 2) (some 3)).dma50 =
        some (round2 (307 / 125)) ∧
    round2 (307 / 125) ≠ 307 / 125 ∧
    (getTrendAnalysis none (some 2300) (some 2500)).dma50 = none := by
  refine ⟨?_, ?_, ?_⟩
  · have h := ((trend_echo_rounding (some (307 / 125)) (some 2) (some 3)).1 (by norm_num [truthy])).1
    simpa using h
  · norm_num [round2, round_eq]
  · exact ((trend_echo_rounding none (some 2300) (some 2500)).2 (by norm_num [truthy])).1

theorem levRec_nil_left (t : List Char) : levRec [] t = t.length := by
  simp [levRec]

theorem levRec_nil_right (s : List Char) : levRec s [] = s.length := by
  cases s <;> simp [levRec]

/-- Triangle bounds for levRec: dropping or adding one leading character on
either side changes the distance by at most one.  All four are proved
together by strong induction on the total length. -/
theorem levRec_bounds : ∀ (N : Nat) (s t : List Char), s.length + t.length ≤ N →
    (∀ a, levRec s t ≤ levRec (a :: s) t + 1) ∧
    (∀ b, levRec s t ≤ levRec s (b :: t) + 1) ∧
    (∀ a, levRec (a :: s) t ≤ levRec s t + 1) ∧
    (∀ b, levRec s (b :: t) ≤ levRec s t + 1) := by
  intro N
  induction N with
  | zero =>
    intro s t hst
    cases s with
    | cons a s' => simp at hst
    | nil =>
      cases t with
      | cons b t' => simp at hst
      | nil =>
        refine ⟨fun a => ?_, fun b => ?_, fun a => ?_, fun b => ?_⟩ <;>
          simp [levRec_nil_left, levRec_nil_right]
  | succ n ih =>
    intro s t hst
    refine ⟨fun a => ?_, fun b => ?_, fun a => ?_, fun b => ?_⟩
    · cases t with
      | nil =>
        simp only [levRec_nil_right, List.length_cons]
        omega
      | cons b t' =>
        have hm : s.length + t'.length ≤ n := by
          simp only [List.length_cons] at hst
          omega
        by_cases hba : b = a
        · subst hba
          simp only [levRec, if_pos rfl]
          exact (ih s t' hm).2.2.2 b
        · simp only [levRec, if_neg hba]
          have h4 := (ih s t' hm).2.2.2 b
          have h1 := (ih s t' hm).1 a
          rw [← min_add_add_right, ← min_add_add_right]
          simp only [le_min_iff]
          omega
    · cases s with
      | nil =>
        simp only [levRec_nil_left, List.length_cons]
        omega
      | cons a s' =>
        have hm : s'.length + t.length ≤ n := by
          simp only [List.length_cons] at hst
          omega
        by_cases hba : b = a
        · subst hba
          simp only [levRec, if_pos rfl]
          exact (ih s' t hm).2.2.1 b
        · simp only [levRec, if_neg hba]
          have h3 := (ih s' t hm).2.2.1 a
          have h2 := (ih s' t hm).2.1 b
          rw [← min_add_add_right, ← min_add_add_right]
          simp only [le_min_iff]
          omega
    · cases t with
      | nil => simp [levRec_nil_right]
      | cons b t' =>
        have hm : s.length + t'.length ≤ n := by
          simp only [List.length_cons] at hst
          omega
        by_cases hba : b = a
        · subst hba
          simp only [levRec, if_pos rfl]
          exact (ih s t' hm).2.1 b
        · simp only [levRec, if_neg hba]
          exact le_trans (min_le_right _ _) (le_trans (min_le_left _ _) (Nat.le_refl _))
    · cases s with
      | nil => simp [levRec_nil_left]
      | cons a s' =>
        have hm : s'.length + t.length ≤ n := by
          simp only [List.length_cons] at hst
          omega
        by_cases hba : b = a
        · subst hba
          simp only [levRec, if_pos rfl]
          exact (ih s' t hm).1 b
        · simp only [levRec, if_neg hba]
          exact le_trans (min_le_right _ _) (min_le_right _ _)

/-- Minimality: no edit script beats levRec. -/
theorem aligns_levRec_le {s t : List Char} {n : Nat} (h : Aligns s t n) :
    levRec s t ≤ n := by
  induction h with
  | nil => simp [levRec_nil_left]
  | copy a h ih =>
    simp only [levRec, if_pos rfl]
    exact ih
  | sub hab h ih =>
    rename_i a b s' t' n'
    have hba : ¬(b = a) := fun hba => hab hba.symm
    simp only [levRec, if_neg hba]
    exact le_trans (min_le_left _ _) (Nat.add_le_add_right ih 1)
  | ins b h ih =>
    rename_i s' t' n'
    exact le_trans ((levRec_bounds (s'.length + t'.length) s' t' le_rfl).2.2.2 b)
      (Nat.add_le_add_right ih 1)
  | del a h ih =>
    rename_i s' t' n'
    exact le_trans ((levRec_bounds (s'.length + t'.length) s' t' le_rfl).2.2.1 a)
      (Nat.add_le_add_right ih 1)

theorem aligns_nil_left : ∀ t : List Char, Aligns [] t t.length
  | [] => Aligns.nil
  | b :: t => Aligns.ins b (aligns_nil_left t)

theorem aligns_nil_right : ∀ s : List Char, Aligns s [] s.length
  | [] => Aligns.nil
  | a :: s => Aligns.del a (aligns_nil_right s)

/-- Existence: some edit script costs exactly levRec. -/
theorem aligns_levRec_aux : ∀ (N : Nat) (s t : List Char), s.length + t.length ≤ N →
    Aligns s t (levRec s t) := by
  intro N
  induction N with
  | zero =>
    intro s t hst
    cases s with
    | cons a s' => simp at hst
    | nil =>
      cases t with
      | cons b t' => simp at hst
      | nil =>
        rw [levRec_nil_left]
        exact Aligns.nil
  | succ n ih =>
    intro s t hst
    cases s with
    | nil =>
      rw [levRec_nil_left]
      exact aligns_nil_left t
    | cons a s' =>
      cases t with
      | nil =>
        rw [levRec_nil_right]
        exact aligns_nil_right _
      | cons b t' =>
        have hm1 : s'.length + t'.length ≤ n := by
          simp only [List.length_cons] at hst
          omega
        have hm2 : s'.length + (b :: t').length ≤ n := by
          simp only [List.length_cons] at hst ⊢
          omega
        have hm3 : (a :: s').length + t'.length ≤ n := by
          simp only [List.length_cons] at hst ⊢
          omega
        by_cases hba : b = a
        · subst hba
          simp only [levRec, if_pos rfl]
          exact Aligns.copy b (ih s' t' hm1)
        · simp only [levRec, if_neg hba]
          rcases Nat.le_total (levRec s' t' + 1)
            (min (levRec s' (b :: t') + 1) (levRec (a :: s') t' + 1)) with h | h
          · rw [min_eq_left h]
            exact Aligns.sub (fun hab => hba hab.symm) (ih s' t' hm1)
          · rw [min_eq_right h]
            rcases Nat.le_total (levRec s' (b :: t') + 1) (levRec (a :: s') t' + 1) with
              h2 | h2
            · rw [min_eq_left h2]
              exact Aligns.del a (ih s' (b :: t') hm2)
            · rw [min_eq_right h2]
              exact Aligns.ins b (ih (a :: s') t' hm3)

theorem aligns_levRec (s t : List Char) : Aligns s t (levRec s t) :=
  aligns_levRec_aux (s.length + t.length) s t le_rfl

theorem aligns_append_copy {s t : List Char} {n : Nat} (a : Char) (h : Aligns s t n) :
    Aligns (s ++ [a]) (t ++ [a]) n := by
  induction h with
  | nil => exact Aligns.copy a Aligns.nil
  | copy c h ih => exact Aligns.copy c ih
  | sub hab h ih => exact Aligns.sub hab ih
  | ins b h ih => exact Aligns.ins b ih
  | del c h ih => exact Aligns.del c ih

theorem aligns_append_sub {s t : List Char} {n : Nat} {a b : Char} (hab : a ≠ b)
    (h : Aligns s t n) : Aligns (s ++ [a]) (t ++ [b]) (n + 1) := by
  induction h with
  | nil => exact Aligns.sub hab Aligns.nil
  | copy c h ih => exact Aligns.copy c ih
  | sub hcd h ih => exact Aligns.sub hcd ih
  | ins c h ih => exact Aligns.ins c ih
  | del c h ih => exact Aligns.del c ih

theorem aligns_append_ins {s t : List Char} {n : Nat} (b : Char) (h : Aligns s t n) :
    Aligns s (t ++ [b]) (n + 1) := by
  induction h with
  | nil => exact Aligns.ins b Aligns.nil
  | copy c h ih => exact Aligns.copy c ih
  | sub hcd h ih => exact Aligns.sub hcd ih
  | ins c h ih => exact Aligns.ins c ih
  | del c h ih => exact Aligns.del c ih

theorem aligns_append_del {s t : List Char} {n : Nat} (a : Char) (h : Aligns s t n) :
    Aligns (s ++ [a]) t (n + 1) := by
  induction h with
  | nil => exact Aligns.del a Aligns.nil
  | copy c h ih => exact Aligns.copy c ih
  | sub hcd h ih => exact Aligns.sub hcd ih
  | ins c h ih => exact Aligns.ins c ih
  | del c h ih => exact Aligns.del c ih

/-- Edit scripts are closed under reversing both strings. -/
theorem aligns_reverse {s t : List Char} {n : Nat} (h : Aligns s t n) :
    Aligns s.reverse t.reverse n := by
  induction h with
  | nil => exact Aligns.nil
  | copy c h ih =>
    simp only [List.reverse_cons]
    exact aligns_append_copy c ih
  | sub hcd h ih =>
    simp only [List.reverse_cons]
    exact aligns_append_sub hcd ih
  | ins c h ih =>
    simp only [List.reverse_cons]
    exact aligns_append_ins c ih
  | del c h ih =>
    simp only [List.reverse_cons]
    exact aligns_append_del c ih

/-- levRec is invariant under reversing both strings: both values are the
least cost of the same family of edit scripts. -/
theorem levRec_reverse (s t : List Char) : levRec s.reverse t.reverse = levRec s t := by
  apply Nat.le_antisymm
  · exact aligns_levRec_le (aligns_reverse (aligns_levRec s t))
  · have h := aligns_reverse (aligns_levRec s.reverse t.reverse)
    simp only [List.reverse_reverse] at h
    exact aligns_levRec_le h

theorem levRowTail_spec (c2 : Char) (p : List Char) :
    ∀ (v u : List Char),
      levRowTail c2 v ((prefCol u v).map fun w => levRec w.reverse p.reverse)
          (levRec u.reverse (c2 :: p.reverse)) =
        (prefCol u v).tail.map fun w => levRec w.reverse (c2 :: p.reverse) := by
  intro v
  induction v with
  | nil => intro u; simp [prefCol, levRowTail]
  | cons c1 v' ih =>
    intro u
    simp only [prefCol, List.map_cons, levRowTail, List.tail_cons]
    have hhead : (((prefCol (u ++ [c1]) v').map fun w => levRec w.reverse p.reverse).headD 0) =
        levRec (u ++ [c1]).reverse p.reverse := by
      cases v' <;> simp [prefCol]
    rw [hhead]
    have hentry : (if c2 = c1 then levRec u.reverse p.reverse
        else min (levRec u.reverse p.reverse + 1)
          (min (levRec u.reverse (c2 :: p.reverse) + 1)
            (levRec (u ++ [c1]).reverse p.reverse + 1))) =
        levRec (u ++ [c1]).reverse (c2 :: p.reverse) := by
      rw [show (u ++ [c1]).reverse = c1 :: u.reverse from by simp]
      rw [show levRec (c1 :: u.reverse) (c2 :: p.reverse) =
        if c2 = c1 then levRec u.reverse p.reverse
        else min (levRec u.reverse p.reverse + 1)
          (min (levRec u.reverse (c2 :: p.reverse) + 1)
            (levRec (c1 :: u.reverse) p.reverse + 1)) from by simp only [levRec]]
    rw [hentry, ih (u ++ [c1])]
    cases v' <;> simp [prefCol]



theorem levRows_spec (s1 : List Char) :
    ∀ (s2rest p : List Char),
      levRows s1 s2rest p.length ((prefCol [] s1).map fun w => levRec w.reverse p.reverse) =
        (prefCol [] s1).map fun w => levRec w.reverse (p ++ s2rest).reverse := by
  intro s2rest
  induction s2rest with
  | nil => intro p; simp [levRows]
  | cons c2 s2' ih =>
    intro p
    simp only [levRows]
    have hrow : (p.length + 1) ::
        levRowTail c2 s1 ((prefCol [] s1).map fun w => levRec w.reverse p.reverse)
          (p.length + 1) =
        (prefCol [] s1).map fun w => levRec w.reverse ((p ++ [c2]).reverse) := by
      have hleft : levRec (([] : List Char)).reverse (c2 :: p.reverse) = p.length + 1 := by
        simp [levRec_nil_left]
      rw [show p.length + 1 = levRec (([] : List Char)).reverse (c2 :: p.reverse) from
        hleft.symm]
      rw [levRowTail_spec c2 p s1 []]
      rw [show (p ++ [c2]).reverse = c2 :: p.reverse from by simp]
      cases s1 <;> simp [prefCol]
    rw [hrow]
    rw [show p.length + 1 = (p ++ [c2]).length from by simp]
    rw [ih (p ++ [c2])]
    simp

theorem prefCol_map_getD (g : List Char → Nat) :
    ∀ (v u : List Char), ((prefCol u v).map g).getD v.length 0 = g (u ++ v) := by
  intro v
  induction v with
  | nil => intro u; simp [prefCol]
  | cons c v' ih =>
    intro u
    simp only [prefCol, List.map_cons, List.length_cons, List.getD_cons_succ]
    rw [ih (u ++ [c])]
    simp

theorem prefCol_map_length : ∀ (v u : List Char),
    (prefCol u v).map List.length = List.range' u.length (v.length + 1) := by
  intro v
  induction v with
  | nil => intro u; simp [prefCol, List.range']
  | cons c v' ih =>
    intro u
    simp only [prefCol, List.map_cons, List.length_cons]
    rw [ih (u ++ [c])]
    simp [List.range']

/-- The dynamic program of the source computes levRec. -/
theorem levenshteinDistance_eq_levRec (s1 s2 : List Char) :
    levenshteinDistance s1 s2 = levRec s1 s2 := by
  unfold levenshteinDistance
  have hinit : List.range (s1.length + 1) =
      (prefCol [] s1).map fun w => levRec w.reverse (([] : List Char)).reverse := by
    have h1 : ((prefCol [] s1).map fun w => levRec w.reverse (([] : List Char)).reverse) =
        (prefCol [] s1).map List.length := by
      apply List.map_congr_left
      intro w _
      simp [levRec_nil_right]
    rw [h1, prefCol_map_length s1 []]
    simp [List.range_eq_range']
  rw [hinit]
  nth_rewrite 1 [show ((0 : Nat)) = (([] : List Char)).length from rfl]
  rw [levRows_spec s1 s2 []]
  rw [prefCol_map_getD _ s1 []]
  simp [levRec_reverse]

/-- C2: levenshteinDistance computes exactly the classic Levenshtein edit
distance: it is the least n such that some script of n single character
substitutions, insertions and deletions transforms the first string into the
second. -/
theorem levenshteinDistance_isLeast (str1 str2 : List Char) :
    IsLeast {n | Aligns str1 str2 n} (levenshteinDistance str1 str2) := by
  rw [levenshteinDistance_eq_levRec]
  exact ⟨aligns_levRec str1 str2, fun n hn => aligns_levRec_le hn⟩


end RKCP
